import Mathlib

/-!
Verification of the core of `blockchain.py` (P2P distributed blockchain).

The development shallowly embeds the Python classes `Transaction`, `Block`,
`Blockchain` and the block-handling methods of `Node`.  The SHA-256 block
hash is modelled by an abstract parameter `H : HashInput → String` over the
exact preimage fields the Python code serializes (`index`, `transactions`,
`previous_hash`, `timestamp`, `nonce`); no property of SHA-256 is assumed.
Python `float` amounts and timestamps are modelled by `ℚ`; balances
(`dict.get(.., 0)`) by total functions `String → ℚ` defaulting to 0.
The possibly non-terminating proof-of-work loop of `Block.mine_block` is
modelled with `Nat.find` under the hypothesis that a solution exists.
-/

namespace BC

/-- Python class `Transaction` (fields of `Transaction.__init__`). -/
structure Transaction where
  sender : String
  receiver : String
  amount : ℚ
  timestamp : ℚ
deriving DecidableEq

/-- The preimage record that `Block.calculate_hash` serializes:
`{index, transactions, previous_hash, timestamp, nonce}`. -/
structure HashInput where
  index : Nat
  transactions : List Transaction
  previous_hash : String
  timestamp : ℚ
  nonce : Nat
deriving DecidableEq

/-- Python class `Block` (fields set by `Block.__init__` plus the stored
`nonce` and `hash`). -/
structure Block where
  index : Nat
  transactions : List Transaction
  previous_hash : String
  timestamp : ℚ
  nonce : Nat
  hash : String
deriving DecidableEq

/-- Python class `Blockchain` (fields of `Blockchain.__init__`). -/
structure Blockchain where
  chain : List Block
  difficulty : Nat
  pending_transactions : List Transaction
  mining_reward : ℚ
  balances : String → ℚ

/-- The wire shape of `Blockchain.to_dict` / input of `Blockchain.from_dict`
(`balances` is not serialized). -/
structure PeerData where
  chain : List Block
  difficulty : Nat
  pending_transactions : List Transaction
  mining_reward : ℚ
deriving DecidableEq

/-- `Transaction.is_valid`: amount positive, sender and receiver distinct and
non-empty (Python truthiness of a string is non-emptiness). -/
def Transaction.isValid (t : Transaction) : Bool :=
  if t.amount ≤ 0 then false
  else if t.sender = t.receiver then false
  else if t.sender = "" ∨ t.receiver = "" then false
  else true

section Model

variable (H : HashInput → String)

/-- `Block.calculate_hash`: hash of the five serialized fields (the stored
`hash` itself is not part of the preimage). -/
def calculateHash (b : Block) : String :=
  H ⟨b.index, b.transactions, b.previous_hash, b.timestamp, b.nonce⟩

/-- The hash of block `b` recomputed at nonce `n` (the value
`self.hash = self.calculate_hash()` takes after setting `self.nonce = n`). -/
def hashAt (b : Block) (n : Nat) : String :=
  H ⟨b.index, b.transactions, b.previous_hash, b.timestamp, n⟩

/-- `Block.__init__`: nonce starts at 0 and the hash is computed at once. -/
def mkBlock (index : Nat) (transactions : List Transaction)
    (previous_hash : String) (timestamp : ℚ) : Block :=
  ⟨index, transactions, previous_hash, timestamp, 0,
    H ⟨index, transactions, previous_hash, timestamp, 0⟩⟩

/-- Python `self.hash[:difficulty] == "0" * difficulty`: the first `D`
characters of `s` are all the character `'0'`. -/
def prefixOk (s : String) (D : Nat) : Bool :=
  s.data.take D == List.replicate D '0'

/-- Termination hypothesis for the `while` loop of `Block.mine_block`: the
loop first tests the stored hash (at the current nonce), then tests the
recomputed hash at each nonce `self.nonce + 1 + k`. -/
def MineHyp (b : Block) (D : Nat) : Prop :=
  prefixOk b.hash D = true ∨ ∃ k, prefixOk (hashAt H b (b.nonce + 1 + k)) D = true

/-- `Block.mine_block`: increment the nonce and recompute the hash until the
hash has `D` leading `'0'` characters.  The loop exits immediately if the
stored hash already satisfies the target, otherwise it stops at the first
`nonce + 1 + k` whose recomputed hash does. -/
def mineBlock (b : Block) (D : Nat) (h : MineHyp H b D) : Block :=
  if h0 : prefixOk b.hash D = true then b
  else
    { b with
      nonce := b.nonce + 1 + Nat.find (Or.resolve_left h h0),
      hash := hashAt H b (b.nonce + 1 + Nat.find (Or.resolve_left h h0)) }

/-- One transaction step of `Blockchain.update_balances`: deduct from the
sender unless it is `"System"`, then credit the receiver (absent dict keys
read as 0). -/
def applyTx (bal : String → ℚ) (t : Transaction) : String → ℚ :=
  let bal1 :=
    if t.sender ≠ "System" then
      Function.update bal t.sender (bal t.sender - t.amount)
    else bal
  Function.update bal1 t.receiver (bal1 t.receiver + t.amount)

/-- `Blockchain.update_balances` as a function of the chain: starting from
the empty table, replay every transaction of every block in order. -/
def balancesOf (chain : List Block) : String → ℚ :=
  chain.foldl (fun bal blk => blk.transactions.foldl applyTx bal) (fun _ => 0)

/-- `Blockchain.update_balances` acting on the blockchain state. -/
def updateBalances (st : Blockchain) : Blockchain :=
  { st with balances := balancesOf st.chain }

/-- `Blockchain.get_latest_block` = `self.chain[-1]` (the Python code would
raise on an empty chain, hence the hypothesis). -/
def getLatestBlock (st : Blockchain) (hne : st.chain ≠ []) : Block :=
  st.chain.getLast hne

/-- `Blockchain.create_genesis_block()` = `Block(0, [], "0")` constructed at
wall-clock time `ts` (Python defaults the timestamp to `time.time()`). -/
def createGenesisBlock (ts : ℚ) : Block :=
  mkBlock H 0 [] "0" ts

/-- `Blockchain.__init__` with genesis construction time `ts`. -/
def initialBlockchain (ts : ℚ) : Blockchain :=
  { chain := [createGenesisBlock H ts], difficulty := 2,
    pending_transactions := [], mining_reward := 10, balances := fun _ => 0 }

/-- `Blockchain.add_transaction`: validity gate, then (for non-`"System"`
senders) the solvency gate against the derived balance table, then append to
the pending pool.  Returns the `(success, message)` pair and the new state. -/
def addTransaction (st : Blockchain) (t : Transaction) :
    (Bool × String) × Blockchain :=
  if t.isValid = true then
    if t.sender ≠ "System" ∧ st.balances t.sender < t.amount then
      ((false, "Insufficient balance"), st)
    else
      ((true, "Transaction added successfully"),
        { st with pending_transactions := st.pending_transactions ++ [t] })
  else
    ((false, "Invalid transaction"), st)

/-- `Blockchain.mine_pending_transactions(addr)`: append the coinbase
`Transaction("System", addr, mining_reward)` (created at time `tsTx`) to the
pending pool, build a block over the extended pool at the next index (at
time `tsB`), mine it, append it to the chain, rebuild balances, and clear
the pending pool.  Returns the mined block and the new state. -/
def minePendingTransactions (st : Blockchain) (addr : String) (tsTx tsB : ℚ)
    (hne : st.chain ≠ [])
    (h : MineHyp H
      (mkBlock H st.chain.length
        (st.pending_transactions ++ [⟨"System", addr, st.mining_reward, tsTx⟩])
        (getLatestBlock st hne).hash tsB) st.difficulty) :
    Block × Blockchain :=
  let b := mineBlock H
    (mkBlock H st.chain.length
      (st.pending_transactions ++ [⟨"System", addr, st.mining_reward, tsTx⟩])
      (getLatestBlock st hne).hash tsB) st.difficulty h
  (b, { chain := st.chain ++ [b], difficulty := st.difficulty,
        pending_transactions := [], mining_reward := st.mining_reward,
        balances := balancesOf (st.chain ++ [b]) })

/-- The loop body of `Blockchain.is_chain_valid`, scanning from position 1:
each block must rehash to its stored hash and link to its predecessor. -/
def chainValidFrom (prev : Block) (l : List Block) : Bool :=
  match l with
  | [] => true
  | cur :: rest =>
      (cur.hash == calculateHash H cur && cur.previous_hash == prev.hash) &&
        chainValidFrom cur rest

/-- `Blockchain.is_chain_valid`: positions 1.. are checked against their
predecessors; the genesis block itself is not checked. -/
def isChainValid (bc : Blockchain) : Bool :=
  match bc.chain with
  | [] => true
  | g :: rest => chainValidFrom H g rest

/-- `Blockchain.from_dict`: rebuild the blockchain object verbatim from the
wire fields (stored nonces and hashes are kept, nothing is validated) and
rebuild balances by replay. -/
def fromDict (p : PeerData) : Blockchain :=
  { chain := p.chain, difficulty := p.difficulty,
    pending_transactions := p.pending_transactions,
    mining_reward := p.mining_reward, balances := balancesOf p.chain }

/-- `Node.validate_and_add_block`: accept a peer-submitted block iff it is
the strict next slot, links to the local tip, and rehashes bit-exactly; on
acceptance append it and rebuild balances, otherwise leave the state
untouched. -/
def validateAndAddBlock (st : Blockchain) (b : Block) (hne : st.chain ≠ []) :
    Bool × Blockchain :=
  if b.index ≠ st.chain.length then (false, st)
  else if b.previous_hash ≠ (getLatestBlock st hne).hash then (false, st)
  else if b.hash ≠ calculateHash H b then (false, st)
  else
    (true, { st with chain := st.chain ++ [b],
                     balances := balancesOf (st.chain ++ [b]) })

/-- `Node.sync_with_peers`: for each successfully fetched peer chain in
iteration order, replace the current blockchain whenever the peer chain is
strictly longer and passes `is_chain_valid`. -/
def syncWithPeers (st : Blockchain) (peers : List PeerData) : Blockchain :=
  peers.foldl
    (fun bc p =>
      let pb := fromDict p
      if bc.chain.length < pb.chain.length ∧ isChainValid H pb = true
      then pb else bc)
    st

/-- The scanning loop of `Node.resolve_conflicts`: `acc` carries
`(longest_chain, max_length)`; a peer chain is retained when it is strictly
longer than the running maximum and individually valid. -/
def selectChain (acc : Option Blockchain × Nat) (peers : List PeerData) :
    Option Blockchain × Nat :=
  match peers with
  | [] => acc
  | p :: ps =>
      let pb := fromDict p
      if acc.2 < pb.chain.length ∧ isChainValid H pb = true then
        selectChain (some pb, pb.chain.length) ps
      else
        selectChain acc ps

/-- `Node.resolve_conflicts`: longest-valid-chain election starting from the
local chain length; adopt the winner if any, otherwise keep the local
state. -/
def resolveConflicts (st : Blockchain) (peers : List PeerData) :
    Bool × Blockchain :=
  match (selectChain H ((none : Option Blockchain), st.chain.length) peers).1 with
  | some bc => (true, bc)
  | none => (false, st)

/-- One state transition of a node's blockchain, as triggered by the HTTP
handlers: `/mine`, `/receive_block`, `/transaction` and
`/receive_transaction` (both run `Blockchain.add_transaction`), `/sync`,
`/consensus`.  Peer-supplied data (blocks, chains) is arbitrary. -/
inductive Step : Blockchain → Blockchain → Prop where
  | mine (st : Blockchain) (addr : String) (tsTx tsB : ℚ) (hne : st.chain ≠ [])
      (h : MineHyp H
        (mkBlock H st.chain.length
          (st.pending_transactions ++ [⟨"System", addr, st.mining_reward, tsTx⟩])
          (getLatestBlock st hne).hash tsB) st.difficulty) :
      Step st (minePendingTransactions H st addr tsTx tsB hne h).2
  | recvBlock (st : Blockchain) (b : Block) (hne : st.chain ≠ []) :
      Step st (validateAndAddBlock H st b hne).2
  | addTx (st : Blockchain) (t : Transaction) :
      Step st (addTransaction st t).2
  | sync (st : Blockchain) (peers : List PeerData) :
      Step st (syncWithPeers H st peers)
  | consensus (st : Blockchain) (peers : List PeerData) :
      Step st (resolveConflicts H st peers).2

/-- The transitions that do not replace the chain wholesale: local mine,
receive-block, and the two transaction-adding handlers. -/
inductive StepLocal : Blockchain → Blockchain → Prop where
  | mine (st : Blockchain) (addr : String) (tsTx tsB : ℚ) (hne : st.chain ≠ [])
      (h : MineHyp H
        (mkBlock H st.chain.length
          (st.pending_transactions ++ [⟨"System", addr, st.mining_reward, tsTx⟩])
          (getLatestBlock st hne).hash tsB) st.difficulty) :
      StepLocal st (minePendingTransactions H st addr tsTx tsB hne h).2
  | recvBlock (st : Blockchain) (b : Block) (hne : st.chain ≠ []) :
      StepLocal st (validateAndAddBlock H st b hne).2
  | addTx (st : Blockchain) (t : Transaction) :
      StepLocal st (addTransaction st t).2

/-- States reachable from a fresh node (genesis constructed at time `ts0`)
by any sequence of handler-triggered transitions. -/
def Reachable (ts0 : ℚ) (st : Blockchain) : Prop :=
  Relation.ReflTransGen (Step H) (initialBlockchain H ts0) st

/-- States reachable without the sync/consensus whole-chain replacement. -/
def ReachableLocal (ts0 : ℚ) (st : Blockchain) : Prop :=
  Relation.ReflTransGen (StepLocal H) (initialBlockchain H ts0) st

/-- Link integrity: every block points to the hash of its predecessor. -/
def Links (chain : List Block) : Prop :=
  ∀ i x y, chain[i]? = some x → chain[i + 1]? = some y →
    y.previous_hash = x.hash

/-- Hash integrity at every position ≥ 1. -/
def HashOk (chain : List Block) : Prop :=
  ∀ i x, chain[i]? = some x → 1 ≤ i → x.hash = calculateHash H x

/-- Index consistency at every position ≥ 1. -/
def IdxOk (chain : List Block) : Prop :=
  ∀ i x, chain[i]? = some x → 1 ≤ i → x.index = i

end Model

/-! Concrete instantiations of the abstract hash used to exercise the model
on explicit inputs.  `HW` makes every hash meet difficulty 2; `Hh` is a
constant hash that never meets difficulty 2; `H7` has its unique
difficulty-1 solution at nonce 3; `H9` depends only on the timestamp. -/

def HW : HashInput → String := fun _ => "00x"

def stW : Blockchain := initialBlockchain HW 0

def hneW : stW.chain ≠ [] := List.cons_ne_nil _ _

/-- A block that the fresh node `stW` accepts via `receive_block`. -/
def goodB : Block := ⟨1, [], "00x", 0, 0, "00x"⟩

def good2 : Blockchain := (validateAndAddBlock HW stW goodB hneW).2

def hneG2 : good2.chain ≠ [] := by decide

def coinW : Transaction := ⟨"System", "alice", stW.mining_reward, 0⟩

def b0W : Block :=
  mkBlock HW stW.chain.length (stW.pending_transactions ++ [coinW])
    (getLatestBlock stW hneW).hash 0

def hmW : MineHyp HW b0W stW.difficulty := Or.inl (by decide)

/-- A valid two-block peer chain for `stW`, with non-default `difficulty`,
`pending_transactions` and `mining_reward` fields. -/
def pW : PeerData :=
  ⟨[⟨0, [], "0", 0, 0, "q"⟩, ⟨1, [], "q", 0, 0, "00x"⟩], 3,
    [⟨"bob", "carol", 1, 0⟩], 7⟩

def Hh : HashInput → String := fun _ => "h"

/-- A peer chain that passes `is_chain_valid` (links and rehashes check out)
but whose second block carries index 5. -/
def peerBad : PeerData :=
  ⟨[⟨0, [], "0", 0, 0, "x"⟩, ⟨5, [], "x", 0, 0, "h"⟩], 2, [], 10⟩

def badStateC5 : Blockchain := syncWithPeers Hh (initialBlockchain Hh 0) [peerBad]

def hneC6 : (initialBlockchain Hh 0).chain ≠ [] := List.cons_ne_nil _ _

/-- A block that links and rehashes under `Hh`, so `receive_block` accepts
it, yet its hash has no leading `'0'` at all. -/
def badB6 : Block := ⟨1, [], "h", 0, 0, "h"⟩

def badStateC6 : Blockchain :=
  (validateAndAddBlock Hh (initialBlockchain Hh 0) badB6 hneC6).2

def H7 : HashInput → String := fun inp => if inp.nonce = 3 then "0x" else "xx"

def b7 : Block := mkBlock H7 0 [] "0" 0

def h71 : MineHyp H7 b7 1 := Or.inr ⟨2, by decide⟩

def h70 : MineHyp H7 b7 0 := Or.inl (by decide)

def H9 : HashInput → String := fun inp => if inp.timestamp = 0 then "a" else "b"

/-! Helper lemmas. -/

theorem mineBlock_index (H : HashInput → String) (b : Block) (D : Nat)
    (h : MineHyp H b D) : (mineBlock H b D h).index = b.index := by
  unfold mineBlock; split <;> rfl

theorem mineBlock_transactions (H : HashInput → String) (b : Block) (D : Nat)
    (h : MineHyp H b D) : (mineBlock H b D h).transactions = b.transactions := by
  unfold mineBlock; split <;> rfl

theorem mineBlock_previous_hash (H : HashInput → String) (b : Block) (D : Nat)
    (h : MineHyp H b D) : (mineBlock H b D h).previous_hash = b.previous_hash := by
  unfold mineBlock; split <;> rfl

theorem mineBlock_hash_calc (H : HashInput → String) (b : Block) (D : Nat)
    (h : MineHyp H b D) (hb : b.hash = calculateHash H b) :
    (mineBlock H b D h).hash = calculateHash H (mineBlock H b D h) := by
  unfold mineBlock; split
  · exact hb
  · rfl

theorem mineBlock_prefix (H : HashInput → String) (b : Block) (D : Nat)
    (h : MineHyp H b D) : prefixOk (mineBlock H b D h).hash D = true := by
  unfold mineBlock; split
  next h0 => exact h0
  next h0 => exact Nat.find_spec (Or.resolve_left h h0)

theorem addTransaction_chain (st : Blockchain) (t : Transaction) :
    (addTransaction st t).2.chain = st.chain := by
  unfold addTransaction; split_ifs <;> rfl

theorem applyTx_point (bal : String → ℚ) (t : Transaction) (A : String) :
    applyTx bal t A =
      bal A + (if t.receiver = A then t.amount else 0)
        - (if t.sender = A ∧ t.sender ≠ "System" then t.amount else 0) := by
  unfold applyTx
  rw [Function.update_apply]
  by_cases hs : t.sender = "System"
  · simp only [if_neg (show ¬(t.sender ≠ "System") from fun hc => hc hs)]
    rw [if_neg (show ¬(t.sender = A ∧ t.sender ≠ "System") from fun hc => hc.2 hs)]
    by_cases hr : A = t.receiver
    · rw [if_pos hr, if_pos (show t.receiver = A from hr.symm), hr]; ring
    · rw [if_neg hr, if_neg (show ¬(t.receiver = A) from fun hh => hr hh.symm)]
      ring
  · simp only [if_pos (show t.sender ≠ "System" from hs)]
    by_cases hr : A = t.receiver
    · rw [if_pos hr, Function.update_apply,
        if_pos (show t.receiver = A from hr.symm)]
      by_cases hsn : A = t.sender
      · have hrs : t.receiver = t.sender := hr.symm.trans hsn
        rw [if_pos hrs,
          if_pos (show t.sender = A ∧ t.sender ≠ "System" from ⟨hsn.symm, hs⟩),
          hsn]
        ring
      · have hrs : ¬(t.receiver = t.sender) := fun hh => hsn (hr.trans hh)
        rw [if_neg hrs,
          if_neg (show ¬(t.sender = A ∧ t.sender ≠ "System") from
            fun hh => hsn hh.1.symm),
          hr]
        ring
    · rw [if_neg hr, Function.update_apply,
        if_neg (show ¬(t.receiver = A) from fun hh => hr hh.symm)]
      by_cases hsn : A = t.sender
      · rw [if_pos hsn,
          if_pos (show t.sender = A ∧ t.sender ≠ "System" from ⟨hsn.symm, hs⟩),
          hsn]
        ring
      · rw [if_neg hsn,
          if_neg (show ¬(t.sender = A ∧ t.sender ≠ "System") from
            fun hh => hsn hh.1.symm)]
        ring

theorem foldl_applyTx (ts : List Transaction) :
    ∀ (bal : String → ℚ) (A : String),
      ts.foldl applyTx bal A =
        bal A
          + ((ts.filter (fun t => decide (t.receiver = A))).map
              Transaction.amount).sum
          - ((ts.filter (fun t => decide (t.sender = A ∧ t.sender ≠ "System"))).map
              Transaction.amount).sum := by
  induction ts with
  | nil => intro bal A; simp
  | cons t ts ih =>
      intro bal A
      rw [List.foldl_cons, ih, applyTx_point]
      simp only [List.filter_cons, decide_eq_true_eq]
      split_ifs <;> (try simp only [List.map_cons, List.sum_cons]) <;> ring

theorem balancesOf_point (chain : List Block) :
    ∀ (bal : String → ℚ) (A : String),
      chain.foldl (fun bal blk => blk.transactions.foldl applyTx bal) bal A =
        bal A
          + (((chain.flatMap Block.transactions).filter
                (fun t => decide (t.receiver = A))).map Transaction.amount).sum
          - (((chain.flatMap Block.transactions).filter
                (fun t => decide (t.sender = A ∧ t.sender ≠ "System"))).map
              Transaction.amount).sum := by
  induction chain with
  | nil => intro bal A; simp
  | cons b chain ih =>
      intro bal A
      rw [List.foldl_cons, ih, foldl_applyTx]
      simp only [List.flatMap_cons, List.filter_append, List.map_append,
        List.sum_append]
      ring

theorem chainValidFrom_spec (H : HashInput → String) (l : List Block) :
    ∀ (prev : Block), chainValidFrom H prev l = true →
      (∀ b ∈ l, b.hash = calculateHash H b) ∧
      (∀ i x y, (prev :: l)[i]? = some x → (prev :: l)[i + 1]? = some y →
        y.previous_hash = x.hash) := by
  induction l with
  | nil =>
      intro prev _
      refine ⟨fun b hb => absurd hb (List.not_mem_nil b), ?_⟩
      intro i x y _ hy
      obtain ⟨hlt, _⟩ := List.getElem?_eq_some_iff.mp hy
      simp at hlt
  | cons cur rest ih =>
      intro prev hv
      simp only [chainValidFrom, Bool.and_eq_true, beq_iff_eq] at hv
      obtain ⟨⟨h1, h2⟩, h3⟩ := hv
      obtain ⟨ihh, ihl⟩ := ih cur h3
      refine ⟨?_, ?_⟩
      · intro b hb
        rcases List.mem_cons.mp hb with rfl | hb'
        · exact h1
        · exact ihh b hb'
      · intro i x y hx hy
        cases i with
        | zero =>
            rw [List.getElem?_cons_zero] at hx
            rw [List.getElem?_cons_succ, List.getElem?_cons_zero] at hy
            cases Option.some.inj hx
            cases Option.some.inj hy
            exact h2
        | succ j =>
            rw [List.getElem?_cons_succ] at hx hy
            exact ihl j x y hx hy

theorem isChainValid_props (H : HashInput → String) (bc : Blockchain)
    (hv : isChainValid H bc = true) : Links bc.chain ∧ HashOk H bc.chain := by
  cases hc : bc.chain with
  | nil =>
      constructor
      · intro i x y hx _
        simp at hx
      · intro i x hx _
        simp at hx
  | cons g rest =>
      unfold isChainValid at hv
      rw [hc] at hv
      have hv' : chainValidFrom H g rest = true := hv
      obtain ⟨hh, hl⟩ := chainValidFrom_spec H rest g hv'
      constructor
      · intro i x y hx hy
        exact hl i x y hx hy
      · intro i x hx h1
        cases i with
        | zero => omega
        | succ j =>
            rw [List.getElem?_cons_succ] at hx
            exact hh x (List.getElem?_mem hx)

theorem links_append (chain : List Block) (b : Block) (hne : chain ≠ [])
    (hL : Links chain) (hprev : b.previous_hash = (chain.getLast hne).hash) :
    Links (chain ++ [b]) := by
  intro i x y hx hy
  obtain ⟨hlt, _⟩ := List.getElem?_eq_some_iff.mp hy
  have hlt' : i + 1 < chain.length + 1 := by simpa using hlt
  rcases Nat.lt_or_ge (i + 1) chain.length with hcase | hcase
  · rw [List.getElem?_append_left (by omega)] at hx
    rw [List.getElem?_append_left hcase] at hy
    exact hL i x y hx hy
  · have hi1 : i + 1 = chain.length := by omega
    have hy' : y = b := by
      rw [hi1, List.getElem?_concat_length] at hy
      exact (Option.some.inj hy).symm
    have hxe : chain[i]? = some x := by
      rw [List.getElem?_append_left (by omega)] at hx
      exact hx
    obtain ⟨hxl, hxv⟩ := List.getElem?_eq_some_iff.mp hxe
    have hlast : chain.getLast hne = x := by
      rw [List.getLast_eq_getElem]
      have hieq : chain.length - 1 = i := by omega
      rw [← hxv]
      congr 1
    rw [hy', hprev, hlast]

theorem hashok_append (H : HashInput → String) (chain : List Block) (b : Block)
    (hb : b.hash = calculateHash H b) (hH : HashOk H chain) :
    HashOk H (chain ++ [b]) := by
  intro i x hx h1
  obtain ⟨hlt, _⟩ := List.getElem?_eq_some_iff.mp hx
  have hlt' : i < chain.length + 1 := by simpa using hlt
  rcases Nat.lt_or_ge i chain.length with hcase | hcase
  · rw [List.getElem?_append_left hcase] at hx
    exact hH i x hx h1
  · have hi : i = chain.length := by omega
    subst hi
    rw [List.getElem?_concat_length] at hx
    cases Option.some.inj hx
    exact hb

theorem idxok_append (chain : List Block) (b : Block)
    (hb : b.index = chain.length) (hI : IdxOk chain) : IdxOk (chain ++ [b]) := by
  intro i x hx h1
  obtain ⟨hlt, _⟩ := List.getElem?_eq_some_iff.mp hx
  have hlt' : i < chain.length + 1 := by simpa using hlt
  rcases Nat.lt_or_ge i chain.length with hcase | hcase
  · rw [List.getElem?_append_left hcase] at hx
    exact hI i x hx h1
  · have hi : i = chain.length := by omega
    subst hi
    rw [List.getElem?_concat_length] at hx
    cases Option.some.inj hx
    exact hb

theorem links_singleton (g : Block) : Links [g] := by
  intro i x y _ hy
  obtain ⟨hlt, _⟩ := List.getElem?_eq_some_iff.mp hy
  simp at hlt

theorem hashok_singleton (H : HashInput → String) (g : Block) : HashOk H [g] := by
  intro i x hx h1
  obtain ⟨hlt, _⟩ := List.getElem?_eq_some_iff.mp hx
  simp at hlt
  omega

theorem idxok_singleton (g : Block) : IdxOk [g] := by
  intro i x hx h1
  obtain ⟨hlt, _⟩ := List.getElem?_eq_some_iff.mp hx
  simp at hlt
  omega

theorem validateAndAddBlock_cases (H : HashInput → String) (st : Blockchain)
    (b : Block) (hne : st.chain ≠ []) :
    validateAndAddBlock H st b hne = (false, st) ∨
      (validateAndAddBlock H st b hne =
          (true, { st with chain := st.chain ++ [b],
                           balances := balancesOf (st.chain ++ [b]) }) ∧
        b.index = st.chain.length ∧
        b.previous_hash = (getLatestBlock st hne).hash ∧
        b.hash = calculateHash H b) := by
  unfold validateAndAddBlock
  split_ifs with h1 h2 h3
  · exact Or.inl rfl
  · exact Or.inl rfl
  · exact Or.inl rfl
  · exact Or.inr ⟨rfl, not_not.mp h1, not_not.mp h2, not_not.mp h3⟩

theorem minePending_block (H : HashInput → String) (st : Blockchain)
    (addr : String) (tsTx tsB : ℚ) (hne : st.chain ≠ [])
    (h : MineHyp H
      (mkBlock H st.chain.length
        (st.pending_transactions ++ [⟨"System", addr, st.mining_reward, tsTx⟩])
        (getLatestBlock st hne).hash tsB) st.difficulty) :
    (minePendingTransactions H st addr tsTx tsB hne h).1 =
      mineBlock H
        (mkBlock H st.chain.length
          (st.pending_transactions ++ [⟨"System", addr, st.mining_reward, tsTx⟩])
          (getLatestBlock st hne).hash tsB) st.difficulty h := rfl

theorem minePending_chain (H : HashInput → String) (st : Blockchain)
    (addr : String) (tsTx tsB : ℚ) (hne : st.chain ≠ [])
    (h : MineHyp H
      (mkBlock H st.chain.length
        (st.pending_transactions ++ [⟨"System", addr, st.mining_reward, tsTx⟩])
        (getLatestBlock st hne).hash tsB) st.difficulty) :
    (minePendingTransactions H st addr tsTx tsB hne h).2 =
      { chain := st.chain ++ [(minePendingTransactions H st addr tsTx tsB hne h).1],
        difficulty := st.difficulty, pending_transactions := [],
        mining_reward := st.mining_reward,
        balances := balancesOf
          (st.chain ++ [(minePendingTransactions H st addr tsTx tsB hne h).1]) } := rfl

theorem syncWithPeers_cons (H : HashInput → String) (st : Blockchain)
    (p : PeerData) (ps : List PeerData) :
    syncWithPeers H st (p :: ps) =
      syncWithPeers H
        (if st.chain.length < (fromDict p).chain.length ∧
            isChainValid H (fromDict p) = true
         then fromDict p else st) ps := rfl

theorem syncWithPeers_result (H : HashInput → String) (peers : List PeerData) :
    ∀ st : Blockchain, syncWithPeers H st peers = st ∨
      ∃ p ∈ peers, syncWithPeers H st peers = fromDict p ∧
        isChainValid H (fromDict p) = true ∧ 0 < p.chain.length := by
  induction peers with
  | nil => intro st; exact Or.inl rfl
  | cons p ps ih =>
      intro st
      rw [syncWithPeers_cons]
      by_cases hc : st.chain.length < (fromDict p).chain.length ∧
          isChainValid H (fromDict p) = true
      · rw [if_pos hc]
        rcases ih (fromDict p) with h | ⟨q, hq, h1, h2, h3⟩
        · right
          refine ⟨p, List.mem_cons_self p ps, h, hc.2, ?_⟩
          have hlen' : st.chain.length < p.chain.length := hc.1
          omega
        · right; exact ⟨q, List.mem_cons_of_mem p hq, h1, h2, h3⟩
      · rw [if_neg hc]
        rcases ih st with h | ⟨q, hq, h1, h2, h3⟩
        · left; exact h
        · right; exact ⟨q, List.mem_cons_of_mem p hq, h1, h2, h3⟩

theorem selectChain_cons (H : HashInput → String) (o : Option Blockchain)
    (m : Nat) (p : PeerData) (ps : List PeerData) :
    selectChain H (o, m) (p :: ps) =
      if m < p.chain.length ∧ isChainValid H (fromDict p) = true
      then selectChain H (some (fromDict p), p.chain.length) ps
      else selectChain H (o, m) ps := rfl

theorem selectChain_result (H : HashInput → String) (peers : List PeerData) :
    ∀ (o : Option Blockchain) (m : Nat),
      (selectChain H (o, m) peers).1 = o ∨
        ∃ p ∈ peers, (selectChain H (o, m) peers).1 = some (fromDict p) ∧
          isChainValid H (fromDict p) = true ∧ 0 < p.chain.length := by
  induction peers with
  | nil => intro o m; exact Or.inl rfl
  | cons p ps ih =>
      intro o m
      rw [selectChain_cons]
      by_cases hc : m < p.chain.length ∧
          isChainValid H (fromDict p) = true
      · rw [if_pos hc]
        rcases ih (some (fromDict p)) p.chain.length with
          h | ⟨q, hq, h1, h2, h3⟩
        · right
          refine ⟨p, List.mem_cons_self p ps, h, hc.2, ?_⟩
          have hlen' : m < p.chain.length := hc.1
          omega
        · right; exact ⟨q, List.mem_cons_of_mem p hq, h1, h2, h3⟩
      · rw [if_neg hc]
        rcases ih o m with h | ⟨q, hq, h1, h2, h3⟩
        · left; exact h
        · right; exact ⟨q, List.mem_cons_of_mem p hq, h1, h2, h3⟩

theorem resolveConflicts_result (H : HashInput → String) (st : Blockchain)
    (peers : List PeerData) :
    (resolveConflicts H st peers).2 = st ∨
      ∃ p ∈ peers, (resolveConflicts H st peers).2 = fromDict p ∧
        isChainValid H (fromDict p) = true ∧ 0 < p.chain.length := by
  unfold resolveConflicts
  rcases selectChain_result H peers none st.chain.length with h | ⟨p, hp, h1, h2, h3⟩
  · rw [h]
    exact Or.inl rfl
  · rw [h1]
    exact Or.inr ⟨p, hp, rfl, h2, h3⟩

theorem reachable_inv (H : HashInput → String) (ts0 : ℚ) (st : Blockchain)
    (hr : Reachable H ts0 st) :
    Links st.chain ∧ HashOk H st.chain ∧ st.chain ≠ [] := by
  have hr' : Relation.ReflTransGen (Step H) (initialBlockchain H ts0) st := hr
  clear hr
  induction hr' with
  | refl =>
      exact ⟨links_singleton _, hashok_singleton H _, List.cons_ne_nil _ _⟩
  | tail hsteps hstep ih =>
      rename_i mid fin
      obtain ⟨ihL, ihH, ihne⟩ := ih
      cases hstep with
      | mine addr tsTx tsB hne h =>
          have hprev : (minePendingTransactions H mid addr tsTx tsB hne h).1.previous_hash =
              (getLatestBlock mid hne).hash := by
            rw [minePending_block, mineBlock_previous_hash]
            rfl
          have hhash : (minePendingTransactions H mid addr tsTx tsB hne h).1.hash =
              calculateHash H (minePendingTransactions H mid addr tsTx tsB hne h).1 := by
            rw [minePending_block]
            exact mineBlock_hash_calc H _ _ h rfl
          rw [minePending_chain]
          exact ⟨links_append mid.chain _ hne ihL hprev,
            hashok_append H mid.chain _ hhash ihH, by simp⟩
      | recvBlock b hne =>
          rcases validateAndAddBlock_cases H mid b hne with hrej | ⟨hacc, _, hprev, hhash⟩
          · rw [hrej]
            exact ⟨ihL, ihH, ihne⟩
          · rw [hacc]
            exact ⟨links_append mid.chain b hne ihL hprev,
              hashok_append H mid.chain b hhash ihH, by simp⟩
      | addTx t =>
          rw [addTransaction_chain]
          exact ⟨ihL, ihH, ihne⟩
      | sync peers =>
          rcases syncWithPeers_result H peers mid with h | ⟨p, _, h1, h2, h3⟩
          · rw [h]
            exact ⟨ihL, ihH, ihne⟩
          · rw [h1]
            obtain ⟨hL, hH⟩ := isChainValid_props H (fromDict p) h2
            refine ⟨hL, hH, ?_⟩
            have hc : (fromDict p).chain = p.chain := rfl
            rw [hc]
            exact List.ne_nil_of_length_pos h3
      | consensus peers =>
          rcases resolveConflicts_result H mid peers with h | ⟨p, _, h1, h2, h3⟩
          · rw [h]
            exact ⟨ihL, ihH, ihne⟩
          · rw [h1]
            obtain ⟨hL, hH⟩ := isChainValid_props H (fromDict p) h2
            refine ⟨hL, hH, ?_⟩
            have hc : (fromDict p).chain = p.chain := rfl
            rw [hc]
            exact List.ne_nil_of_length_pos h3

theorem reachableLocal_inv (H : HashInput → String) (ts0 : ℚ) (st : Blockchain)
    (hr : ReachableLocal H ts0 st) :
    Links st.chain ∧ IdxOk st.chain ∧ st.chain ≠ [] := by
  have hr' : Relation.ReflTransGen (StepLocal H) (initialBlockchain H ts0) st := hr
  clear hr
  induction hr' with
  | refl =>
      exact ⟨links_singleton _, idxok_singleton _, List.cons_ne_nil _ _⟩
  | tail hsteps hstep ih =>
      rename_i mid fin
      obtain ⟨ihL, ihI, ihne⟩ := ih
      cases hstep with
      | mine addr tsTx tsB hne h =>
          have hprev : (minePendingTransactions H mid addr tsTx tsB hne h).1.previous_hash =
              (getLatestBlock mid hne).hash := by
            rw [minePending_block, mineBlock_previous_hash]
            rfl
          have hidx : (minePendingTransactions H mid addr tsTx tsB hne h).1.index =
              mid.chain.length := by
            rw [minePending_block, mineBlock_index]
            rfl
          rw [minePending_chain]
          exact ⟨links_append mid.chain _ hne ihL hprev,
            idxok_append mid.chain _ hidx ihI, by simp⟩
      | recvBlock b hne =>
          rcases validateAndAddBlock_cases H mid b hne with hrej | ⟨hacc, hidx, hprev, _⟩
          · rw [hrej]
            exact ⟨ihL, ihI, ihne⟩
          · rw [hacc]
            exact ⟨links_append mid.chain b hne ihL hprev,
              idxok_append mid.chain b hidx ihI, by simp⟩
      | addTx t =>
          rw [addTransaction_chain]
          exact ⟨ihL, ihI, ihne⟩

theorem selectChain_none (H : HashInput → String) (ps : List PeerData) :
    ∀ (o : Option Blockchain) (m : Nat),
      (∀ p ∈ ps, ¬(m < p.chain.length ∧ isChainValid H (fromDict p) = true)) →
      selectChain H (o, m) ps = (o, m) := by
  induction ps with
  | nil => intro o m _; rfl
  | cons p ps ih =>
      intro o m hall
      rw [selectChain_cons]
      rw [if_neg (hall p (List.mem_cons_self p ps))]
      exact ih o m (fun q hq => hall q (List.mem_cons_of_mem p hq))

theorem selectChain_found (H : HashInput → String) (ps : List PeerData) :
    ∀ (o : Option Blockchain) (m : Nat),
      (∃ p ∈ ps, m < p.chain.length ∧ isChainValid H (fromDict p) = true) →
      ∃ l1 p l2, ps = l1 ++ p :: l2 ∧
        m < p.chain.length ∧ isChainValid H (fromDict p) = true ∧
        (∀ q ∈ l1, isChainValid H (fromDict q) = true → m < q.chain.length →
          q.chain.length < p.chain.length) ∧
        (∀ q ∈ l2, isChainValid H (fromDict q) = true →
          q.chain.length ≤ p.chain.length) ∧
        selectChain H (o, m) ps = (some (fromDict p), p.chain.length) := by
  induction ps with
  | nil =>
      intro o m hex
      obtain ⟨p, hp, _⟩ := hex
      exact absurd hp (List.not_mem_nil p)
  | cons p0 ps ih =>
      intro o m hex
      rw [selectChain_cons]
      by_cases hc : m < p0.chain.length ∧ isChainValid H (fromDict p0) = true
      · rw [if_pos hc]
        by_cases hex' : ∃ q ∈ ps, p0.chain.length < q.chain.length ∧
            isChainValid H (fromDict q) = true
        · obtain ⟨l1, q, l2, hsplit, hq1, hq2, hbef, haft, hres⟩ :=
            ih (some (fromDict p0)) p0.chain.length hex'
          refine ⟨p0 :: l1, q, l2, by rw [hsplit]; rfl, ?_, hq2, ?_, haft, hres⟩
          · have hm := hc.1
            omega
          · intro r hr hrv hrm
            rcases List.mem_cons.mp hr with rfl | hr'
            · exact hq1
            · rcases Nat.lt_or_ge r.chain.length p0.chain.length with hlt | hge
              · omega
              · rcases Nat.eq_or_lt_of_le hge with heq | hgt
                · omega
                · exact hbef r hr' hrv hgt
        · have hall : ∀ q ∈ ps, ¬(p0.chain.length < q.chain.length ∧
              isChainValid H (fromDict q) = true) :=
            fun q hq hcq => hex' ⟨q, hq, hcq⟩
          refine ⟨[], p0, ps, rfl, hc.1, hc.2, ?_, ?_, ?_⟩
          · intro r hr
            exact absurd hr (List.not_mem_nil r)
          · intro q hq hqv
            rcases Nat.lt_or_ge p0.chain.length q.chain.length with hgt | hle
            · exact absurd ⟨hgt, hqv⟩ (hall q hq)
            · exact hle
          · exact selectChain_none H ps (some (fromDict p0)) p0.chain.length hall
      · rw [if_neg hc]
        have hex'' : ∃ q ∈ ps, m < q.chain.length ∧
            isChainValid H (fromDict q) = true := by
          obtain ⟨q, hq, hcq⟩ := hex
          rcases List.mem_cons.mp hq with rfl | hq'
          · exact absurd hcq hc
          · exact ⟨q, hq', hcq⟩
        obtain ⟨l1, q, l2, hsplit, hq1, hq2, hbef, haft, hres⟩ := ih o m hex''
        refine ⟨p0 :: l1, q, l2, by rw [hsplit]; rfl, hq1, hq2, ?_, haft, hres⟩
        intro r hr hrv hrm
        rcases List.mem_cons.mp hr with rfl | hr'
        · exact absurd ⟨hrm, hrv⟩ hc
        · exact hbef r hr' hrv hrm

/-! Claim theorems. -/

/-- C1: for every blockchain state (nonempty chain, solvable proof-of-work)
and every miner address, `mine_pending_transactions` returns a block `B` and
leaves the state with the chain grown by exactly `B`; `B.index` equals the
old chain length, `B.previous_hash` equals the old tip's hash,
`B.transactions` equals the old pending list followed by the coinbase
`Transaction("System", miner, mining_reward)`; the balance table is rebuilt
by full replay of the new chain and the pending list is empty (difficulty
and mining reward are untouched). -/
theorem C1_minePendingTransactions_spec (H : HashInput → String)
    (st : Blockchain) (addr : String) (tsTx tsB : ℚ) (hne : st.chain ≠ [])
    (h : MineHyp H
      (mkBlock H st.chain.length
        (st.pending_transactions ++ [⟨"System", addr, st.mining_reward, tsTx⟩])
        (getLatestBlock st hne).hash tsB) st.difficulty) :
    (minePendingTransactions H st addr tsTx tsB hne h).2.chain =
        st.chain ++ [(minePendingTransactions H st addr tsTx tsB hne h).1] ∧
    (minePendingTransactions H st addr tsTx tsB hne h).1.index =
        st.chain.length ∧
    (minePendingTransactions H st addr tsTx tsB hne h).1.previous_hash =
        (getLatestBlock st hne).hash ∧
    (minePendingTransactions H st addr tsTx tsB hne h).1.transactions =
        st.pending_transactions ++ [⟨"System", addr, st.mining_reward, tsTx⟩] ∧
    (minePendingTransactions H st addr tsTx tsB hne h).2.balances =
        balancesOf (minePendingTransactions H st addr tsTx tsB hne h).2.chain ∧
    (minePendingTransactions H st addr tsTx tsB hne h).2.pending_transactions = [] ∧
    (minePendingTransactions H st addr tsTx tsB hne h).2.difficulty =
        st.difficulty ∧
    (minePendingTransactions H st addr tsTx tsB hne h).2.mining_reward =
        st.mining_reward := by
  refine ⟨rfl, ?_, ?_, ?_, rfl, rfl, rfl, rfl⟩
  · rw [minePending_block, mineBlock_index]
    rfl
  · rw [minePending_block, mineBlock_previous_hash]
    rfl
  · rw [minePending_block, mineBlock_transactions]
    rfl

/-- C1 witness: an explicit mining step on a fresh node. -/
theorem C1_witness :
    (minePendingTransactions HW stW "alice" 0 0 hneW hmW).2.pending_transactions
        = [] ∧
    (minePendingTransactions HW stW "alice" 0 0 hneW hmW).1.index =
        stW.chain.length ∧
    (minePendingTransactions HW stW "alice" 0 0 hneW hmW).2.chain =
        stW.chain ++ [(minePendingTransactions HW stW "alice" 0 0 hneW hmW).1] := by
  obtain ⟨h1, h2, _, _, _, h6, _, _⟩ :=
    C1_minePendingTransactions_spec HW stW "alice" 0 0 hneW hmW
  exact ⟨h6, h2, h1⟩

/-- C2: `validate_and_add_block` accepts a submitted block iff its index is
the local chain length, its `previous_hash` is the local tip's hash, and
its stored hash rehashes bit-exactly; on acceptance the chain grows by
exactly that block and balances are rebuilt (pending pool untouched); on
rejection the state is unchanged; a duplicate (`index = len - 1`) and a
gapped block (`index > len`) are rejected. -/
theorem C2_validateAndAddBlock_spec (H : HashInput → String) (st : Blockchain)
    (b : Block) (hne : st.chain ≠ []) :
    ((validateAndAddBlock H st b hne).1 = true ↔
      b.index = st.chain.length ∧
      b.previous_hash = (getLatestBlock st hne).hash ∧
      b.hash = calculateHash H b) ∧
    ((validateAndAddBlock H st b hne).1 = true →
      (validateAndAddBlock H st b hne).2.chain = st.chain ++ [b] ∧
      (validateAndAddBlock H st b hne).2.balances =
        balancesOf (st.chain ++ [b]) ∧
      (validateAndAddBlock H st b hne).2.pending_transactions =
        st.pending_transactions ∧
      (validateAndAddBlock H st b hne).2.difficulty = st.difficulty ∧
      (validateAndAddBlock H st b hne).2.mining_reward = st.mining_reward) ∧
    ((validateAndAddBlock H st b hne).1 = false →
      (validateAndAddBlock H st b hne).2 = st) ∧
    (b.index = st.chain.length - 1 → (validateAndAddBlock H st b hne).1 = false) ∧
    (st.chain.length < b.index → (validateAndAddBlock H st b hne).1 = false) := by
  have hlen : 0 < st.chain.length := List.length_pos.mpr hne
  unfold validateAndAddBlock
  split_ifs with h1 h2 h3
  · refine ⟨⟨fun hf => absurd hf (by simp),
      fun hc => absurd hc.1 h1⟩,
      fun hf => absurd hf (by simp), fun _ => rfl, fun _ => rfl,
      fun _ => rfl⟩
  · refine ⟨⟨fun hf => absurd hf (by simp),
      fun hc => absurd hc.2.1 h2⟩,
      fun hf => absurd hf (by simp), fun _ => rfl, fun _ => rfl,
      fun _ => rfl⟩
  · refine ⟨⟨fun hf => absurd hf (by simp),
      fun hc => absurd hc.2.2 h3⟩,
      fun hf => absurd hf (by simp), fun _ => rfl, fun _ => rfl,
      fun _ => rfl⟩
  · have hidx : b.index = st.chain.length := not_not.mp h1
    refine ⟨⟨fun _ => ⟨hidx, not_not.mp h2, not_not.mp h3⟩, fun _ => rfl⟩,
      fun _ => ⟨rfl, rfl, rfl, rfl, rfl⟩, ?_, ?_, ?_⟩
    · intro hf
      exact absurd hf (by simp)
    · intro hdup
      exfalso
      omega
    · intro hgt
      exfalso
      omega

/-- C2 witness: a fresh node accepts a well-formed next block; the same
block is then rejected as a duplicate. -/
theorem C2_witness :
    (validateAndAddBlock HW stW goodB hneW).1 = true ∧
    (validateAndAddBlock HW stW goodB hneW).2.chain = stW.chain ++ [goodB] ∧
    (validateAndAddBlock HW good2 goodB hneG2).1 = false := by
  have hs := C2_validateAndAddBlock_spec HW stW goodB hneW
  have hacc : (validateAndAddBlock HW stW goodB hneW).1 = true :=
    hs.1.mpr ⟨by decide, by decide, by decide⟩
  have hdup : (validateAndAddBlock HW good2 goodB hneG2).1 = false :=
    (C2_validateAndAddBlock_spec HW good2 goodB hneG2).2.2.2.1 (by decide)
  exact ⟨hacc, (hs.2.1 hacc).1, hdup⟩

/-- C3: `add_transaction` rejects invalid transactions with
`"Invalid transaction"`, rejects solvent-check failures (non-`"System"`
sender with derived balance below the amount) with
`"Insufficient balance"`, and otherwise appends to the pending pool and
reports success; on either rejection the whole state is unchanged. -/
theorem C3_addTransaction_spec (st : Blockchain) (t : Transaction) :
    (t.isValid = false →
      addTransaction st t = ((false, "Invalid transaction"), st)) ∧
    (t.isValid = true → t.sender ≠ "System" →
      st.balances t.sender < t.amount →
      addTransaction st t = ((false, "Insufficient balance"), st)) ∧
    (t.isValid = true →
      (t.sender = "System" ∨ t.amount ≤ st.balances t.sender) →
      addTransaction st t =
        ((true, "Transaction added successfully"),
          { st with pending_transactions := st.pending_transactions ++ [t] })) := by
  unfold addTransaction
  refine ⟨?_, ?_, ?_⟩
  · intro hv
    rw [if_neg (by simp [hv])]
  · intro hv hs hb
    rw [if_pos hv, if_pos ⟨hs, hb⟩]
  · intro hv hcase
    have hnc : ¬(t.sender ≠ "System" ∧ st.balances t.sender < t.amount) := by
      rcases hcase with hs | hb
      · exact fun hc => hc.1 hs
      · exact fun hc => absurd hc.2 (not_lt.mpr hb)
    rw [if_pos hv, if_neg hnc]

/-- C3 witness: empty sender rejected as invalid, overdraft rejected as
insufficient, and a coinbase-style transaction accepted. -/
theorem C3_witness :
    addTransaction stW ⟨"", "bob", 1, 0⟩ =
        ((false, "Invalid transaction"), stW) ∧
    addTransaction stW ⟨"alice", "bob", 5, 0⟩ =
        ((false, "Insufficient balance"), stW) ∧
    addTransaction stW ⟨"System", "bob", 5, 0⟩ =
        ((true, "Transaction added successfully"),
          { stW with pending_transactions :=
              stW.pending_transactions ++ [⟨"System", "bob", 5, 0⟩] }) := by
  refine ⟨(C3_addTransaction_spec stW _).1 (by decide),
    (C3_addTransaction_spec stW _).2.1 (by decide) (by decide) (by decide),
    (C3_addTransaction_spec stW _).2.2 (by decide) (Or.inl rfl)⟩

/-- C4: `resolve_conflicts` keeps the local state and returns false when no
peer chain is both strictly longer than the local chain and valid;
otherwise it adopts the first-seen longest such chain (deserialized with
rebuilt balances) and returns true. -/
theorem C4_resolveConflicts_spec (H : HashInput → String) (st : Blockchain)
    (peers : List PeerData) :
    ((∀ p ∈ peers, ¬(st.chain.length < p.chain.length ∧
        isChainValid H (fromDict p) = true)) →
      resolveConflicts H st peers = (false, st)) ∧
    ((∃ p ∈ peers, st.chain.length < p.chain.length ∧
        isChainValid H (fromDict p) = true) →
      ∃ l1 p l2, peers = l1 ++ p :: l2 ∧
        st.chain.length < p.chain.length ∧
        isChainValid H (fromDict p) = true ∧
        (∀ q ∈ l1, isChainValid H (fromDict q) = true →
          st.chain.length < q.chain.length →
          q.chain.length < p.chain.length) ∧
        (∀ q ∈ l2, isChainValid H (fromDict q) = true →
          q.chain.length ≤ p.chain.length) ∧
        resolveConflicts H st peers = (true, fromDict p) ∧
        (fromDict p).balances = balancesOf p.chain) := by
  constructor
  · intro hall
    unfold resolveConflicts
    rw [selectChain_none H peers none st.chain.length hall]
  · intro hex
    obtain ⟨l1, p, l2, hsplit, h1, h2, hbef, haft, hres⟩ :=
      selectChain_found H peers none st.chain.length hex
    refine ⟨l1, p, l2, hsplit, h1, h2, hbef, haft, ?_, rfl⟩
    unfold resolveConflicts
    rw [hres]

/-- C4 witness: a strictly longer valid peer chain is adopted. -/
theorem C4_witness : (resolveConflicts HW stW [pW]).1 = true := by
  obtain ⟨l1, p, l2, _, _, _, _, _, hres, _⟩ :=
    (C4_resolveConflicts_spec HW stW [pW]).2
      ⟨pW, List.mem_cons_self _ _, by decide, by decide⟩
  rw [hres]

/-- C5 counterexample: from the initial state, one sync step with the peer
chain `peerBad` — which passes `is_chain_valid` because the hashes reproduce
and the links match, while `is_chain_valid` never inspects `index` — reaches
a state whose block at position 1 stores index 5, refuting
`chain[i].index == i` for sync-reachable states. -/
theorem C5_counterexample :
    Reachable Hh 0 badStateC5 ∧
    badStateC5.chain[1]?.map Block.index = some 5 := by
  constructor
  · exact Relation.ReflTransGen.single
      (Step.sync (initialBlockchain Hh 0) [peerBad])
  · decide

/-- C5 amended: in every reachable state every position `i ≥ 1` satisfies
`chain[i].previous_hash == chain[i-1].hash` (stated for consecutive
positions `i`, `i+1`); the index equality `chain[i].index == i` additionally
holds in every state reachable without sync/consensus whole-chain
replacement — it fails under sync/consensus because `is_chain_valid` does
not check indices. -/
theorem C5_amended (H : HashInput → String) (ts0 : ℚ) :
    (∀ st, Reachable H ts0 st →
      ∀ i x y, st.chain[i]? = some x → st.chain[i + 1]? = some y →
        y.previous_hash = x.hash) ∧
    (∀ st, ReachableLocal H ts0 st →
      (∀ i x y, st.chain[i]? = some x → st.chain[i + 1]? = some y →
        y.previous_hash = x.hash) ∧
      (∀ i x, st.chain[i]? = some x → 1 ≤ i → x.index = i)) := by
  constructor
  · intro st hr
    exact (reachable_inv H ts0 st hr).1
  · intro st hr
    obtain ⟨hL, hI, _⟩ := reachableLocal_inv H ts0 st hr
    exact ⟨hL, hI⟩

/-- C5 witness: after accepting a block on a fresh node, the chain links and
the index invariant hold at position 1. -/
theorem C5_witness :
    goodB.previous_hash = (createGenesisBlock HW 0).hash ∧ goodB.index = 1 := by
  have hreach : Reachable HW 0 good2 :=
    Relation.ReflTransGen.single (Step.recvBlock stW goodB hneW)
  have hreachL : ReachableLocal HW 0 good2 :=
    Relation.ReflTransGen.single (StepLocal.recvBlock stW goodB hneW)
  refine ⟨(C5_amended HW 0).1 good2 hreach 0 (createGenesisBlock HW 0) goodB
    (by decide) (by decide), ?_⟩
  exact ((C5_amended HW 0).2 good2 hreachL).2 1 goodB (by decide) (by decide)

/-- C6 counterexample: from the initial state (difficulty 2), one
receive-block step accepts `badB6` — its hash reproduces bit-exactly, which
is all `validate_and_add_block` checks — although its hash has no leading
`'0'`, refuting the difficulty-prefix invariant for receive-reachable
states. -/
theorem C6_counterexample :
    Reachable Hh 0 badStateC6 ∧
    badStateC6.chain[1]?.map (fun b => prefixOk b.hash badStateC6.difficulty) =
      some false := by
  constructor
  · exact Relation.ReflTransGen.single
      (Step.recvBlock (initialBlockchain Hh 0) badB6 hneC6)
  · decide

/-- C6 amended: in every reachable state every block at position `i ≥ 1`
satisfies `hash == H(block)`; the difficulty-prefix property holds for the
block produced by a local mine at the state's difficulty, but it is not
enforced on received blocks or adopted chains (neither
`validate_and_add_block` nor `is_chain_valid` re-checks the proof-of-work
prefix). -/
theorem C6_amended (H : HashInput → String) (ts0 : ℚ) :
    (∀ st, Reachable H ts0 st →
      ∀ i x, st.chain[i]? = some x → 1 ≤ i → x.hash = calculateHash H x) ∧
    (∀ (st : Blockchain) (addr : String) (tsTx tsB : ℚ) (hne : st.chain ≠ [])
      (h : MineHyp H
        (mkBlock H st.chain.length
          (st.pending_transactions ++
            [⟨"System", addr, st.mining_reward, tsTx⟩])
          (getLatestBlock st hne).hash tsB) st.difficulty),
      prefixOk (minePendingTransactions H st addr tsTx tsB hne h).1.hash
        st.difficulty = true) := by
  constructor
  · intro st hr
    exact (reachable_inv H ts0 st hr).2.1
  · intro st addr tsTx tsB hne h
    rw [minePending_block]
    exact mineBlock_prefix H _ _ h

/-- C6 witness: hash integrity at position 1 after a received block, and the
proof-of-work prefix of a locally mined block. -/
theorem C6_witness :
    goodB.hash = calculateHash HW goodB ∧
    prefixOk (minePendingTransactions HW stW "alice" 0 0 hneW hmW).1.hash
      stW.difficulty = true := by
  have hreach : Reachable HW 0 good2 :=
    Relation.ReflTransGen.single (Step.recvBlock stW goodB hneW)
  exact ⟨(C6_amended HW 0).1 good2 hreach 1 goodB (by decide) (by decide),
    (C6_amended HW 0).2 stW "alice" 0 0 hneW hmW⟩

/-- C7: for a freshly constructed block (`nonce = 0`, stored hash equal to
the computed hash) and any difficulty `D` for which a solution exists,
`mine_block(D)` ends with the nonce equal to the smallest non-negative
integer whose hash meets the `D`-zero prefix (the search starts at nonce 0
and increments by 1); for `D = 0` it succeeds immediately with nonce 0. -/
theorem C7_mineBlock_spec (H : HashInput → String) (b : Block) (D : Nat)
    (h : MineHyp H b D) (h0 : b.nonce = 0) (hh : b.hash = calculateHash H b) :
    prefixOk (hashAt H b (mineBlock H b D h).nonce) D = true ∧
    (∀ m, m < (mineBlock H b D h).nonce → prefixOk (hashAt H b m) D = false) ∧
    (D = 0 → (mineBlock H b D h).nonce = 0) := by
  have hb0 : b.hash = hashAt H b 0 := by
    rw [hh, show calculateHash H b = hashAt H b b.nonce from rfl, h0]
  unfold mineBlock
  split
  next hok =>
    refine ⟨?_, ?_, fun _ => h0⟩
    · rw [h0, ← hb0]
      exact hok
    · intro m hm
      rw [h0] at hm
      exact absurd hm (Nat.not_lt_zero m)
  next hok =>
    have hspec := Nat.find_spec (Or.resolve_left h hok)
    refine ⟨hspec, ?_, ?_⟩
    · intro m hm
      have hm' : m < b.nonce + 1 + Nat.find (Or.resolve_left h hok) := hm
      by_cases hmz : m = 0
      · subst hmz
        rw [← hb0]
        rw [Bool.not_eq_true] at hok
        exact hok
      · have hj : m - 1 < Nat.find (Or.resolve_left h hok) := by omega
        have hmin := Nat.find_min (Or.resolve_left h hok) hj
        have hidx : b.nonce + 1 + (m - 1) = m := by omega
        rw [hidx] at hmin
        rw [Bool.not_eq_true] at hmin
        exact hmin
    · intro hD
      exfalso
      apply hok
      subst hD
      simp [prefixOk]

/-- C7 witness: under `H7` the unique difficulty-1 solution is nonce 3 and
mining stops there; with difficulty 0 mining stops at nonce 0. -/
theorem C7_witness :
    (mineBlock H7 b7 1 h71).nonce = 3 ∧ (mineBlock H7 b7 0 h70).nonce = 0 := by
  obtain ⟨hok, hmin, _⟩ := C7_mineBlock_spec H7 b7 1 h71 rfl rfl
  constructor
  · have h3 : ∀ n, prefixOk (hashAt H7 b7 n) 1 = true → n = 3 := by
      intro n hn
      by_cases hcase : n = 3
      · exact hcase
      · exfalso
        have hxx : hashAt H7 b7 n = "xx" := by
          simp [hashAt, H7, b7, mkBlock, hcase]
        rw [hxx] at hn
        exact absurd hn (by decide)
    exact h3 _ hok
  · exact (C7_mineBlock_spec H7 b7 0 h70 rfl rfl).2.2 rfl

/-- C8: `update_balances` recomputes the balance table by folding the whole
chain from the empty map, so every address `A` ends with the sum of amounts
received by `A` minus the sum of amounts sent by `A` in non-`"System"`
transactions. -/
theorem C8_updateBalances_spec (st : Blockchain) (A : String) :
    (updateBalances st).balances A =
      (((st.chain.flatMap Block.transactions).filter
          (fun t => decide (t.receiver = A))).map Transaction.amount).sum
        - (((st.chain.flatMap Block.transactions).filter
            (fun t => decide (t.sender = A ∧ t.sender ≠ "System"))).map
            Transaction.amount).sum := by
  have h2 : (updateBalances st).balances A =
      st.chain.foldl (fun bal blk => blk.transactions.foldl applyTx bal)
        (fun _ => 0) A := rfl
  rw [h2, balancesOf_point st.chain (fun _ => 0) A]
  ring

/-- C9 counterexample: two Blockchain constructions at different wall-clock
times yield genesis blocks with different hashes, because the construction
timestamp enters the hash preimage (shown with the concrete hash `H9`,
which depends only on the timestamp field, at times 0 and 1). -/
theorem C9_counterexample :
    (createGenesisBlock H9 0).hash ≠ (createGenesisBlock H9 1).hash := by
  decide

/-- C9 amended: every genesis block has index 0, no transactions,
`previous_hash = "0"` and nonce 0, and its hash is determined by the
construction timestamp (`H` applied to those fields); two constructions
agree exactly when their construction timestamps do — cross-time hash
equality does not hold. -/
theorem C9_genesis_spec (H : HashInput → String) (ts : ℚ) :
    (createGenesisBlock H ts).index = 0 ∧
    (createGenesisBlock H ts).transactions = [] ∧
    (createGenesisBlock H ts).previous_hash = "0" ∧
    (createGenesisBlock H ts).nonce = 0 ∧
    (createGenesisBlock H ts).hash = H ⟨0, [], "0", ts, 0⟩ ∧
    (∀ ts' : ℚ, ts = ts' → createGenesisBlock H ts = createGenesisBlock H ts') ∧
    (initialBlockchain H ts).chain = [createGenesisBlock H ts] :=
  ⟨rfl, rfl, rfl, rfl, rfl, fun ts' hts => by rw [hts], rfl⟩

/-- C9 witness: the genesis field facts at a concrete timestamp. -/
theorem C9_witness :
    (createGenesisBlock H9 0).nonce = 0 ∧
    createGenesisBlock H9 0 = createGenesisBlock H9 0 :=
  ⟨(C9_genesis_spec H9 0).2.2.2.1, (C9_genesis_spec H9 0).2.2.2.2.2.1 0 rfl⟩

/-- C10: a sync or consensus replacement installs `fromDict` of a peer
wholesale: the result of either operation is the unchanged local state or
`fromDict p` for some polled peer `p`, and `fromDict` takes `difficulty`,
`mining_reward` and `pending_transactions` verbatim from the peer's wire
data (rebuilding `balances` from the peer chain), so locally queued pending
transactions are discarded on replacement. -/
theorem C10_replacement_spec (H : HashInput → String) (st : Blockchain)
    (peers : List PeerData) :
    (∀ p : PeerData, (fromDict p).chain = p.chain ∧
      (fromDict p).difficulty = p.difficulty ∧
      (fromDict p).pending_transactions = p.pending_transactions ∧
      (fromDict p).mining_reward = p.mining_reward ∧
      (fromDict p).balances = balancesOf p.chain) ∧
    (syncWithPeers H st peers = st ∨
      ∃ p ∈ peers, syncWithPeers H st peers = fromDict p) ∧
    ((resolveConflicts H st peers).2 = st ∨
      ∃ p ∈ peers, (resolveConflicts H st peers).2 = fromDict p) := by
  refine ⟨fun p => ⟨rfl, rfl, rfl, rfl, rfl⟩, ?_, ?_⟩
  · rcases syncWithPeers_result H peers st with h | ⟨p, hp, h1, _, _⟩
    · exact Or.inl h
    · exact Or.inr ⟨p, hp, h1⟩
  · rcases resolveConflicts_result H st peers with h | ⟨p, hp, h1, _, _⟩
    · exact Or.inl h
    · exact Or.inr ⟨p, hp, h1⟩

end BC
